import Mathlib

/-!
Verification development for the PDF table-extraction engine in `src/app.py`
(class `AdvancedPDFTableExtractor`).  The Python code is shallowly embedded:

* strings are `List Char` (`PyStr`); `str.strip`, `re.sub(r'\s+', ' ', ·)` and
  `str.split(c)` are modelled by `pyStrip`, `normWS` and `splitOnChar`;
* PDF layout coordinates are rationals; Python's `round` (round half to even)
  is `pyRound`, and the block-segmentation test `abs(prev_y - y1) > 5` is
  `rowGapExceeded` (stated over numerators/denominators so that it computes,
  and proved equivalent to `5 < |a - b|` in `rowGapExceeded_iff`);
* the insertion-ordered `dict` used for row clustering is an association list
  (`dictAdd`), and Python's stable `sorted`/`list.sort` is the stable
  `List.insertionSort`;
* the mutable `self.all_tables` accumulator is an explicit `ResultSet` state
  threaded through the per-page / per-block processing functions.
-/

/-- Python-string model: a list of characters. -/
abbrev PyStr := List Char

/-- The ASCII whitespace characters matched by Python's `str.strip` and by the
regex class `\s` (space, tab, newline, carriage return, form feed, vertical
tab). -/
def pyIsSpace (c : Char) : Bool :=
  c = ' ' || c = '\t' || c = '\n' || c = '\r' || c = '\x0c' || c = '\x0b'

/-- `str.strip()`: drop whitespace from both ends. -/
def pyStrip (s : PyStr) : PyStr :=
  ((s.dropWhile pyIsSpace).reverse.dropWhile pyIsSpace).reverse

/-- Helper for `normWS`: the flag records whether the previous character was
whitespace (in which case further whitespace is absorbed into the same run). -/
def normWSAux : Bool → PyStr → PyStr
  | _, [] => []
  | prev, c :: rest =>
    if pyIsSpace c then
      if prev then normWSAux true rest else ' ' :: normWSAux true rest
    else c :: normWSAux false rest

/-- `re.sub(r'\s+', ' ', s)`: collapse every maximal whitespace run to a single
space. -/
def normWS (s : PyStr) : PyStr := normWSAux false s

/-- Python's `s.split(d)` for a single-character separator `d`: always returns
`count d s + 1` pieces, including empty ones. -/
def splitOnChar (d : Char) : PyStr → List PyStr
  | [] => [[]]
  | c :: rest =>
    if c = d then [] :: splitOnChar d rest
    else
      match splitOnChar d rest with
      | [] => [[c]]
      | s :: ss => (c :: s) :: ss

/-- Python's `'\n'.join`, used by `_group_text_blocks`. -/
def joinNL : List PyStr → PyStr
  | [] => []
  | [t] => t
  | t :: rest => t ++ '\n' :: joinNL rest

/-- A pdfminer `LTTextContainer`: text plus bounding box `(x0, y0, x1, y1)`. -/
structure TextElem where
  text : PyStr
  x0 : ℚ
  y0 : ℚ
  x1 : ℚ
  y1 : ℚ
deriving DecidableEq, Repr

/-- A page content element as filtered by `extract_all_tables`:
`LTTextContainer`, `LTRect`, `LTLine` or `LTFigure`.  Only text containers
carry data the engine ever reads. -/
inductive ContentElement where
  | text (e : TextElem)
  | rect
  | line
  | figure
deriving DecidableEq, Repr

/-- The text containers of a page, in page order
(`text_elements = [e for e in elements if isinstance(e, LTTextContainer)]`). -/
def textElems (elements : List ContentElement) : List TextElem :=
  elements.filterMap fun
    | ContentElement.text e => some e
    | _ => none

/-- The four table categories, i.e. the keys of `self.all_tables`. -/
inductive TType where
  | regular_tables
  | tab_separated
  | colon_separated
  | other_delimited
deriving DecidableEq, Repr

/-- A pandas `DataFrame` as produced by `_create_dataframe`: a header row and
data rows. -/
structure NormalizedTable where
  headers : List PyStr
  rows : List (List PyStr)
deriving DecidableEq, Repr

/-- The `self.all_tables` accumulator. -/
structure ResultSet where
  regular_tables : List NormalizedTable
  tab_separated : List NormalizedTable
  colon_separated : List NormalizedTable
  other_delimited : List NormalizedTable
deriving DecidableEq, Repr

/-- The state built by `__init__`: four empty categories. -/
def emptyResultSet : ResultSet := ⟨[], [], [], []⟩

/-- Append a table to one category of the result set
(`self.all_tables[table_type].append(df)`). -/
def appendTable (s : ResultSet) (t : TType) (nt : NormalizedTable) : ResultSet :=
  match t with
  | TType.regular_tables => { s with regular_tables := s.regular_tables ++ [nt] }
  | TType.tab_separated => { s with tab_separated := s.tab_separated ++ [nt] }
  | TType.colon_separated => { s with colon_separated := s.colon_separated ++ [nt] }
  | TType.other_delimited => { s with other_delimited := s.other_delimited ++ [nt] }

/-- Python's built-in `round` on an exact rational: round half to even. -/
def pyRound (q : ℚ) : ℤ :=
  let f := q.num.fdiv q.den
  let r := q.num - f * (q.den : ℤ)
  if 2 * r < (q.den : ℤ) then f
  else if (q.den : ℤ) < 2 * r then f + 1
  else if f % 2 = 0 then f else f + 1

/-- `self.min_row_gap` (`= 5`). -/
def min_row_gap : ℤ := 5

/-- The block-segmentation test `abs(prev_y - element.y1) > self.min_row_gap`,
stated over numerators and denominators so that it evaluates by `decide`;
`rowGapExceeded_iff` proves it equal to `5 < |a - b|`. -/
def rowGapExceeded (a b : ℚ) : Prop :=
  min_row_gap * ((a.den : ℤ) * (b.den : ℤ)) <
    |a.num * (b.den : ℤ) - b.num * (a.den : ℤ)|

instance (a b : ℚ) : Decidable (rowGapExceeded a b) := by
  unfold rowGapExceeded; infer_instance

/-- The row key `round(element.y0)` of `_extract_regular_tables`. -/
def rowKey (e : TextElem) : ℤ := pyRound e.y0

/-- Truncate or right-pad one data row to the header width, exactly as the
body of the loop in `_create_dataframe`. -/
def padTruncate (max_cols : Nat) (row : List PyStr) : List PyStr :=
  if row.length > max_cols then row.take max_cols
  else if row.length < max_cols then row ++ List.replicate (max_cols - row.length) []
  else row

/-- `_create_dataframe`: first row becomes the headers, the remaining rows are
truncated/padded to the header width.  `none` on empty input (where the Python
code would fault on `table_data[0]`; every call site guards
`len(table_data) > 1`). -/
def create_dataframe : List (List PyStr) → Option NormalizedTable
  | [] => none
  | headers :: rows => some ⟨headers, rows.map (padTruncate headers.length)⟩

theorem rowGapExceeded_iff (a b : ℚ) : rowGapExceeded a b ↔ 5 < |a - b| := by
  have had : (0:ℚ) < (a.den : ℚ) := by exact_mod_cast a.pos
  have hbd : (0:ℚ) < (b.den : ℚ) := by exact_mod_cast b.pos
  have h1 : (a.num : ℚ) = a * (a.den : ℚ) :=
    (div_eq_iff (ne_of_gt had)).mp (Rat.num_div_den a)
  have h2 : (b.num : ℚ) = b * (b.den : ℚ) :=
    (div_eq_iff (ne_of_gt hbd)).mp (Rat.num_div_den b)
  have key : ((a.num * (b.den:ℤ) - b.num * (a.den:ℤ) : ℤ) : ℚ)
      = (a - b) * ((a.den:ℚ) * (b.den:ℚ)) := by
    push_cast
    rw [h1, h2]; ring
  have hmain : rowGapExceeded a b ↔
      ((5 * ((a.den:ℤ) * (b.den:ℤ)) : ℤ) : ℚ)
        < ((|a.num * (b.den:ℤ) - b.num * (a.den:ℤ)| : ℤ) : ℚ) := by
    unfold rowGapExceeded min_row_gap
    exact Int.cast_lt.symm
  rw [hmain, Int.cast_abs, key]
  push_cast
  rw [abs_mul, abs_of_pos (mul_pos had hbd)]
  exact mul_lt_mul_right (mul_pos had hbd)

/-- One parsed row of a delimited line: `re.sub(r'\s+', ' ', line.strip())`
followed by `split(delimiter)` and a `strip()` of every cell. -/
def splitRow (delimiter : Char) (line : PyStr) : List PyStr :=
  (splitOnChar delimiter (normWS (pyStrip line))).map pyStrip

/-- The `table_data` list built by the loop of `_process_delimited_table`:
one row per line containing the delimiter, accumulated in order. -/
def tableDataOf (lines : List PyStr) (delimiter : Char) : List (List PyStr) :=
  lines.foldl
    (fun acc line => if delimiter ∈ line then acc ++ [splitRow delimiter line] else acc)
    []

/-- `_process_delimited_table`: build `table_data`, and append the normalized
table to the requested category when it has more than one row. -/
def process_delimited_table (s : ResultSet) (lines : List PyStr)
    (delimiter : Char) (table_type : TType) : ResultSet :=
  if 1 < (tableDataOf lines delimiter).length then
    match create_dataframe (tableDataOf lines delimiter) with
    | some nt => appendTable s table_type nt
    | none => s
  else s

/-- The delimiter decision made by the branch structure of
`_extract_delimited_tables` for one block, factored out as a function from the
block's lines to the chosen delimiter and category. -/
def classifyBlock (lines : List PyStr) : Option (Char × TType) :=
  if ∃ l ∈ lines, '\t' ∈ l then some ('\t', TType.tab_separated)
  else if ∃ l ∈ lines, ':' ∈ l ∧ 1 < l.count ':' then some (':', TType.colon_separated)
  else
    match (['|', ';', ','].find? fun d => decide (∃ l ∈ lines, d ∈ l ∧ 1 < l.count d)) with
    | some d => some (d, TType.other_delimited)
    | none => none

/-- The body of the per-block loop of `_extract_delimited_tables`: split the
block into lines, pick a delimiter by the tab / colon / `|;,` priority chain,
and process the block under it. -/
def extractDelimitedFromBlock (s : ResultSet) (block : PyStr) : ResultSet :=
  let lines := splitOnChar '\n' block
  if ∃ l ∈ lines, '\t' ∈ l then
    process_delimited_table s lines '\t' TType.tab_separated
  else if ∃ l ∈ lines, ':' ∈ l ∧ 1 < l.count ':' then
    process_delimited_table s lines ':' TType.colon_separated
  else
    match (['|', ';', ','].find? fun d => decide (∃ l ∈ lines, d ∈ l ∧ 1 < l.count d)) with
    | some d => process_delimited_table s lines d TType.other_delimited
    | none => s

/-- The sort key of `_group_text_blocks`
(`sorted(elements, key=lambda e: (-e.y1, e.x0))`), as a `≤` relation. -/
def blockLe (a b : TextElem) : Prop :=
  b.y1 < a.y1 ∨ (a.y1 = b.y1 ∧ a.x0 ≤ b.x0)

instance (a b : TextElem) : Decidable (blockLe a b) := by
  unfold blockLe; infer_instance

/-- The block-building loop of `_group_text_blocks`: walk the sorted elements,
flushing the current block whenever the vertical gap to the previous element's
`y1` exceeds `min_row_gap`; flush the trailing block at the end. -/
def groupBlocksAux : Option ℚ → List PyStr → List PyStr → List TextElem → List PyStr
  | _, current_block, blocks, [] =>
    if current_block = [] then blocks else blocks ++ [joinNL current_block]
  | prev_y, current_block, blocks, e :: rest =>
    let startNew : Bool :=
      match prev_y with
      | none => true
      | some py => decide (rowGapExceeded py e.y1)
    if startNew then
      if current_block = [] then
        groupBlocksAux (some e.y1) [e.text] blocks rest
      else
        groupBlocksAux (some e.y1) [e.text] (blocks ++ [joinNL current_block]) rest
    else
      groupBlocksAux (some e.y1) (current_block ++ [e.text]) blocks rest

/-- `_group_text_blocks`: sort by `(-y1, x0)` and group by vertical gaps. -/
def group_text_blocks (elements : List TextElem) : List PyStr :=
  groupBlocksAux none [] [] (List.insertionSort blockLe elements)

/-- `_extract_delimited_tables`: classify and process every block in order. -/
def extract_delimited_tables (s : ResultSet) (elements : List TextElem) : ResultSet :=
  (group_text_blocks elements).foldl extractDelimitedFromBlock s

/-- The insertion-ordered dictionary `rows` of `_extract_regular_tables`,
keyed by `round(y0)`; a key's bucket keeps its elements in insertion order. -/
def dictAdd (d : List (ℤ × List TextElem)) (k : ℤ) (e : TextElem) :
    List (ℤ × List TextElem) :=
  if k ∈ d.map Prod.fst then
    d.map fun p => if p.1 = k then (p.1, p.2 ++ [e]) else p
  else d ++ [(k, [e])]

/-- The `rows` dictionary after the grouping loop of
`_extract_regular_tables` (non-text elements are skipped). -/
def buildRows (elements : List ContentElement) : List (ℤ × List TextElem) :=
  elements.foldl
    (fun d ce =>
      match ce with
      | ContentElement.text e => dictAdd d (rowKey e) e
      | _ => d)
    []

/-- The key order of `sorted(rows.items(), key=lambda x: -x[0])`:
`-p.1 ≤ -q.1`, i.e. keys descending. -/
def keyGe (p q : ℤ × List TextElem) : Prop := q.1 ≤ p.1

instance (p q : ℤ × List TextElem) : Decidable (keyGe p q) := by
  unfold keyGe; infer_instance

/-- The in-row order `row_elements.sort(key=lambda e: e.x0)`. -/
def x0le (a b : TextElem) : Prop := a.x0 ≤ b.x0

instance (a b : TextElem) : Decidable (x0le a b) := by
  unfold x0le; infer_instance

/-- The clustered rows of `_extract_regular_tables` just before text
extraction: buckets sorted by descending key, each bucket sorted by `x0`. -/
def clusterRows (elements : List ContentElement) : List (ℤ × List TextElem) :=
  (List.insertionSort keyGe (buildRows elements)).map
    fun p => (p.1, List.insertionSort x0le p.2)

/-- The `table_data` of `_extract_regular_tables`: one row of stripped texts
per cluster. -/
def regularTableData (elements : List ContentElement) : List (List PyStr) :=
  (clusterRows elements).map fun p => p.2.map fun e => pyStrip e.text

/-- `_extract_regular_tables`: append the normalized grid table when it has at
least a header row and one data row. -/
def extract_regular_tables (s : ResultSet) (elements : List ContentElement) : ResultSet :=
  if 1 < (regularTableData elements).length then
    match create_dataframe (regularTableData elements) with
    | some nt => appendTable s TType.regular_tables nt
    | none => s
  else s

/-- `_process_page_elements`: the regular pass over all elements, then the
delimited pass over the page's text containers. -/
def process_page_elements (s : ResultSet) (elements : List ContentElement) : ResultSet :=
  extract_delimited_tables (extract_regular_tables s elements) (textElems elements)

/-- `extract_all_tables`: fold the per-page processing over the document's
pages, starting from the empty accumulator built by `__init__`. -/
def extract_all_tables (pages : List (List ContentElement)) : ResultSet :=
  pages.foldl process_page_elements emptyResultSet

/-- Sanity evaluations of the primitive embeddings on concrete data. -/
theorem embedding_sanity :
    rowGapExceeded 700 680 ∧ ¬ rowGapExceeded 700 698 ∧
    pyRound (700 : ℚ) = 700 ∧
    pyStrip " ab c ".toList = "ab c".toList ∧
    normWS "a \t b".toList = "a b".toList ∧
    splitOnChar ':' "a:b:".toList = ["a".toList, "b".toList, "".toList] ∧
    create_dataframe [["A".toList], ["1".toList, "2".toList]]
      = some ⟨["A".toList], [["1".toList]]⟩ := by decide

/-! ## Helper lemmas -/

theorem padTruncate_length (n : Nat) (row : List PyStr) :
    (padTruncate n row).length = n := by
  unfold padTruncate
  split
  · next h => simp only [List.length_take]; omega
  · split
    · next h => simp only [List.length_append, List.length_replicate]; omega
    · next h1 h2 => omega

theorem padTruncate_of_length_eq {n : Nat} {row : List PyStr}
    (h : row.length = n) : padTruncate n row = row := by
  unfold padTruncate
  rw [if_neg (by omega), if_neg (by omega)]

/-- The `table_data` loop of `_process_delimited_table` produces exactly one
row per line containing the delimiter (in order) and skips the rest. -/
theorem tableDataOf_eq (lines : List PyStr) (delimiter : Char) :
    tableDataOf lines delimiter =
      (lines.filter fun line => decide (delimiter ∈ line)).map (splitRow delimiter) := by
  unfold tableDataOf
  suffices h : ∀ acc : List (List PyStr),
      lines.foldl
        (fun acc line => if delimiter ∈ line then acc ++ [splitRow delimiter line] else acc)
        acc
        = acc ++ (lines.filter fun line => decide (delimiter ∈ line)).map (splitRow delimiter) by
    simpa using h []
  induction lines with
  | nil => intro acc; simp
  | cons l ls ih =>
    intro acc
    by_cases hmem : delimiter ∈ l
    · rw [List.foldl_cons, if_pos hmem, ih, List.filter_cons]
      simp [hmem]
    · rw [List.foldl_cons, if_neg hmem, ih, List.filter_cons]
      simp [hmem]

/-- Every character surviving whitespace normalization is either a literal
space or a non-whitespace character of the input. -/
theorem mem_normWSAux {c : Char} :
    ∀ {b : Bool} {s : PyStr}, c ∈ normWSAux b s → c = ' ' ∨ pyIsSpace c = false := by
  intro b s
  induction s generalizing b with
  | nil => intro h; simp [normWSAux] at h
  | cons d rest ih =>
    intro h
    unfold normWSAux at h
    by_cases hd : pyIsSpace d
    · rw [if_pos hd] at h
      by_cases hb : b
      · subst hb; rw [if_pos rfl] at h; exact ih h
      · simp only [Bool.not_eq_true] at hb; subst hb
        simp only [Bool.false_eq_true, if_false, List.mem_cons] at h
        rcases h with h | h
        · exact Or.inl h
        · exact ih h
    · rw [if_neg hd] at h
      rcases List.mem_cons.mp h with h | h
      · subst h; exact Or.inr (by simpa using hd)
      · exact ih h

theorem tab_not_mem_normWS (s : PyStr) : '\t' ∉ normWS s := by
  intro h
  rcases mem_normWSAux h with h | h
  · exact absurd h (by decide)
  · exact absurd h (by decide)

theorem splitOnChar_of_not_mem {d : Char} :
    ∀ {s : PyStr}, d ∉ s → splitOnChar d s = [s] := by
  intro s
  induction s with
  | nil => intro _; rfl
  | cons c rest ih =>
    intro h
    have hcd : c ≠ d := fun he => h (by simp [he])
    have hrest : d ∉ rest := fun he => h (List.mem_cons_of_mem _ he)
    unfold splitOnChar
    rw [if_neg hcd, ih hrest]

/-- Splitting a tab-free line on the tab character yields a single cell. -/
theorem splitRow_tab_length (line : PyStr) : (splitRow '\t' line).length = 1 := by
  unfold splitRow
  rw [splitOnChar_of_not_mem (tab_not_mem_normWS (pyStrip line))]
  rfl

/-- `_extract_delimited_tables` processes one block exactly according to the
delimiter decision `classifyBlock` makes on its lines. -/
theorem extractDelimitedFromBlock_eq (s : ResultSet) (block : PyStr) :
    extractDelimitedFromBlock s block =
      match classifyBlock (splitOnChar '\n' block) with
      | some (d, t) => process_delimited_table s (splitOnChar '\n' block) d t
      | none => s := by
  unfold extractDelimitedFromBlock classifyBlock
  by_cases h1 : ∃ l ∈ splitOnChar '\n' block, '\t' ∈ l
  · simp only [if_pos h1]
  · simp only [if_neg h1]
    by_cases h2 : ∃ l ∈ splitOnChar '\n' block, ':' ∈ l ∧ 1 < l.count ':'
    · simp only [if_pos h2]
    · simp only [if_neg h2]
      cases hfind : (['|', ';', ','].find? fun d =>
          decide (∃ l ∈ splitOnChar '\n' block, d ∈ l ∧ 1 < l.count d)) with
      | none => simp
      | some d => simp

/-! ## Claims -/

/-- C1: every table produced by `_create_dataframe` from a raw table with at
least two rows is rectangular: each data row has exactly the header length,
enforced by truncation of long rows and right-padding of short rows with empty
strings. -/
theorem claim_C1 (table_data : List (List PyStr)) (nt : NormalizedTable)
    (hlen : 2 ≤ table_data.length) (h : create_dataframe table_data = some nt) :
    ∀ row ∈ nt.rows, row.length = nt.headers.length := by
  match table_data, hlen with
  | headers :: rows, _ =>
    simp only [create_dataframe, Option.some.injEq] at h
    subst h
    intro row hrow
    rcases List.mem_map.mp hrow with ⟨r, _, hr⟩
    subst hr
    exact padTruncate_length headers.length r

theorem claim_C1_witness :
    2 ≤ ([["A".toList], ["1".toList, "2".toList]] : List (List PyStr)).length ∧
      ∀ row ∈ (NormalizedTable.mk ["A".toList] [["1".toList]]).rows,
        row.length = (NormalizedTable.mk ["A".toList] [["1".toList]]).headers.length :=
  ⟨by decide,
    claim_C1 [["A".toList], ["1".toList, "2".toList]]
      (NormalizedTable.mk ["A".toList] [["1".toList]]) (by decide) (by decide)⟩

/-- C4: once a delimiter is chosen, the processing loop of
`_process_delimited_table` turns every line containing the delimiter into
exactly one raw row — trim the line, collapse whitespace runs to single
spaces, split on the delimiter, trim each cell — and skips every line not
containing the delimiter. -/
theorem claim_C4 (lines : List PyStr) (delimiter : Char) :
    tableDataOf lines delimiter =
      (lines.filter fun line => decide (delimiter ∈ line)).map
        fun line => (splitOnChar delimiter (normWS (pyStrip line))).map pyStrip :=
  tableDataOf_eq lines delimiter

/-- C6: shape mismatches are resolved exactly as specified — headers `[A,B]`
with row `[1,2,3]` normalizes the row to `[1,2]`, headers `[A,B,C]` with row
`[1,2]` normalizes it to `[1,2,'']`, and the headers row is always the first
input row, unchanged. -/
theorem claim_C6 :
    create_dataframe [["A".toList, "B".toList], ["1".toList, "2".toList, "3".toList]]
      = some ⟨["A".toList, "B".toList], [["1".toList, "2".toList]]⟩ ∧
    create_dataframe [["A".toList, "B".toList, "C".toList], ["1".toList, "2".toList]]
      = some ⟨["A".toList, "B".toList, "C".toList],
              [["1".toList, "2".toList, "".toList]]⟩ ∧
    ∀ (headers : List PyStr) (rows : List (List PyStr)),
      (create_dataframe (headers :: rows)).map NormalizedTable.headers = some headers := by
  refine ⟨by decide, by decide, ?_⟩
  intro headers rows
  simp [create_dataframe]

/-- C9: the normalizer is the identity on already rectangular input — if every
data row has the header length, `_create_dataframe` returns the header and
data rows unchanged. -/
theorem claim_C9 (headers : List PyStr) (rows : List (List PyStr))
    (h : ∀ r ∈ rows, r.length = headers.length) :
    create_dataframe (headers :: rows) = some ⟨headers, rows⟩ := by
  simp only [create_dataframe, Option.some.injEq, NormalizedTable.mk.injEq, true_and]
  exact (List.map_congr_left fun r hr => padTruncate_of_length_eq (h r hr)).trans
    (List.map_id rows)

theorem claim_C9_witness :
    create_dataframe [["A".toList, "B".toList], ["1".toList, "2".toList]]
      = some ⟨["A".toList, "B".toList], [["1".toList, "2".toList]]⟩ :=
  claim_C9 ["A".toList, "B".toList] [["1".toList, "2".toList]] (by decide)

/-- C10: in a tab-delimited block every produced raw row has exactly one cell,
because whitespace normalization replaces tabs by single spaces before the
split on tab; consequently a tab-delimited normalized table has exactly one
header column and one cell per data row. -/
theorem claim_C10 (lines : List PyStr) :
    (∀ row ∈ tableDataOf lines '\t', row.length = 1) ∧
    ∀ nt : NormalizedTable, create_dataframe (tableDataOf lines '\t') = some nt →
      nt.headers.length = 1 ∧ ∀ r ∈ nt.rows, r.length = 1 := by
  have hrow : ∀ row ∈ tableDataOf lines '\t', row.length = 1 := by
    intro row hrow
    rw [tableDataOf_eq] at hrow
    rcases List.mem_map.mp hrow with ⟨line, _, hline⟩
    subst hline
    exact splitRow_tab_length line
  refine ⟨hrow, ?_⟩
  intro nt h
  cases htd : tableDataOf lines '\t' with
  | nil => rw [htd] at h; simp [create_dataframe] at h
  | cons headers rows =>
    rw [htd] at h
    simp only [create_dataframe, Option.some.injEq] at h
    subst h
    have hhead : headers.length = 1 := hrow headers (htd ▸ List.mem_cons_self _ _)
    refine ⟨hhead, ?_⟩
    intro r hr
    rcases List.mem_map.mp hr with ⟨r0, _, hr0⟩
    subst hr0
    rw [padTruncate_length, hhead]

theorem claim_C10_witness :
    (NormalizedTable.mk ["a b".toList] [["c d".toList]]).headers.length = 1 ∧
      ∀ r ∈ (NormalizedTable.mk ["a b".toList] [["c d".toList]]).rows, r.length = 1 :=
  (claim_C10 ["a\tb".toList, "c\td".toList]).2
    (NormalizedTable.mk ["a b".toList] [["c d".toList]]) (by decide)

/-- Dropping the redundant membership conjunct from the code's multiplicity
tests (`d in line and line.count(d) > 1`). -/
theorem exists_count_simp (d : Char) (lines : List PyStr) :
    (∃ l ∈ lines, d ∈ l ∧ 1 < l.count d) ↔ ∃ l ∈ lines, 1 < l.count d := by
  constructor
  · rintro ⟨l, hl, _, hc⟩; exact ⟨l, hl, hc⟩
  · rintro ⟨l, hl, hc⟩
    exact ⟨l, hl, List.count_pos_iff.mp (by omega), hc⟩

theorem classifyBlock_of_tab {lines : List PyStr} (h : ∃ l ∈ lines, '\t' ∈ l) :
    classifyBlock lines = some ('\t', TType.tab_separated) := by
  unfold classifyBlock; rw [if_pos h]

theorem classifyBlock_of_colon {lines : List PyStr}
    (h1 : ¬ ∃ l ∈ lines, '\t' ∈ l) (h2 : ∃ l ∈ lines, 1 < l.count ':') :
    classifyBlock lines = some (':', TType.colon_separated) := by
  unfold classifyBlock
  rw [if_neg h1, if_pos ((exists_count_simp ':' lines).mpr h2)]

/-- Evaluation of the `for delim in ['|', ';', ','] ... break` search. -/
theorem find?_delims_eval (p : Char → Bool) :
    (['|', ';', ','].find? p) =
      if p '|' then some '|'
      else if p ';' then some ';'
      else if p ',' then some ','
      else none := by
  cases h1 : p '|' <;> cases h2 : p ';' <;> cases h3 : p ',' <;>
    simp [List.find?, h1, h2, h3]

theorem classifyBlock_of_pipe {lines : List PyStr}
    (h1 : ¬ ∃ l ∈ lines, '\t' ∈ l) (h2 : ¬ ∃ l ∈ lines, 1 < l.count ':')
    (h3 : ∃ l ∈ lines, 1 < l.count '|') :
    classifyBlock lines = some ('|', TType.other_delimited) := by
  unfold classifyBlock
  rw [if_neg h1, if_neg (fun hc => h2 ((exists_count_simp ':' lines).mp hc)),
    find?_delims_eval]
  rw [if_pos (decide_eq_true ((exists_count_simp '|' lines).mpr h3))]

theorem classifyBlock_of_semi {lines : List PyStr}
    (h1 : ¬ ∃ l ∈ lines, '\t' ∈ l) (h2 : ¬ ∃ l ∈ lines, 1 < l.count ':')
    (h3 : ¬ ∃ l ∈ lines, 1 < l.count '|') (h4 : ∃ l ∈ lines, 1 < l.count ';') :
    classifyBlock lines = some (';', TType.other_delimited) := by
  unfold classifyBlock
  rw [if_neg h1, if_neg (fun hc => h2 ((exists_count_simp ':' lines).mp hc)),
    find?_delims_eval]
  rw [if_neg (by
      simp only [decide_eq_true_eq]
      exact fun hc => h3 ((exists_count_simp '|' lines).mp hc)),
    if_pos (decide_eq_true ((exists_count_simp ';' lines).mpr h4))]

theorem classifyBlock_of_comma {lines : List PyStr}
    (h1 : ¬ ∃ l ∈ lines, '\t' ∈ l) (h2 : ¬ ∃ l ∈ lines, 1 < l.count ':')
    (h3 : ¬ ∃ l ∈ lines, 1 < l.count '|') (h4 : ¬ ∃ l ∈ lines, 1 < l.count ';')
    (h5 : ∃ l ∈ lines, 1 < l.count ',') :
    classifyBlock lines = some (',', TType.other_delimited) := by
  unfold classifyBlock
  rw [if_neg h1, if_neg (fun hc => h2 ((exists_count_simp ':' lines).mp hc)),
    find?_delims_eval]
  rw [if_neg (by
      simp only [decide_eq_true_eq]
      exact fun hc => h3 ((exists_count_simp '|' lines).mp hc)),
    if_neg (by
      simp only [decide_eq_true_eq]
      exact fun hc => h4 ((exists_count_simp ';' lines).mp hc)),
    if_pos (decide_eq_true ((exists_count_simp ',' lines).mpr h5))]

theorem classifyBlock_of_none {lines : List PyStr}
    (h1 : ¬ ∃ l ∈ lines, '\t' ∈ l) (h2 : ¬ ∃ l ∈ lines, 1 < l.count ':')
    (h3 : ¬ ∃ l ∈ lines, 1 < l.count '|') (h4 : ¬ ∃ l ∈ lines, 1 < l.count ';')
    (h5 : ¬ ∃ l ∈ lines, 1 < l.count ',') :
    classifyBlock lines = none := by
  unfold classifyBlock
  rw [if_neg h1, if_neg (fun hc => h2 ((exists_count_simp ':' lines).mp hc)),
    find?_delims_eval]
  rw [if_neg (by
      simp only [decide_eq_true_eq]
      exact fun hc => h3 ((exists_count_simp '|' lines).mp hc)),
    if_neg (by
      simp only [decide_eq_true_eq]
      exact fun hc => h4 ((exists_count_simp ';' lines).mp hc)),
    if_neg (by
      simp only [decide_eq_true_eq]
      exact fun hc => h5 ((exists_count_simp ',' lines).mp hc))]

/-- Exhaustive case split of the delimiter decision, in the code's priority
order. -/
theorem classifyBlock_total (lines : List PyStr) :
    ((∃ l ∈ lines, '\t' ∈ l) ∧
      classifyBlock lines = some ('\t', TType.tab_separated)) ∨
    (¬(∃ l ∈ lines, '\t' ∈ l) ∧ (∃ l ∈ lines, 1 < l.count ':') ∧
      classifyBlock lines = some (':', TType.colon_separated)) ∨
    (¬(∃ l ∈ lines, '\t' ∈ l) ∧ ¬(∃ l ∈ lines, 1 < l.count ':') ∧
      (∃ l ∈ lines, 1 < l.count '|') ∧
      classifyBlock lines = some ('|', TType.other_delimited)) ∨
    (¬(∃ l ∈ lines, '\t' ∈ l) ∧ ¬(∃ l ∈ lines, 1 < l.count ':') ∧
      ¬(∃ l ∈ lines, 1 < l.count '|') ∧ (∃ l ∈ lines, 1 < l.count ';') ∧
      classifyBlock lines = some (';', TType.other_delimited)) ∨
    (¬(∃ l ∈ lines, '\t' ∈ l) ∧ ¬(∃ l ∈ lines, 1 < l.count ':') ∧
      ¬(∃ l ∈ lines, 1 < l.count '|') ∧ ¬(∃ l ∈ lines, 1 < l.count ';') ∧
      (∃ l ∈ lines, 1 < l.count ',') ∧
      classifyBlock lines = some (',', TType.other_delimited)) ∨
    (¬(∃ l ∈ lines, '\t' ∈ l) ∧ ¬(∃ l ∈ lines, 1 < l.count ':') ∧
      ¬(∃ l ∈ lines, 1 < l.count '|') ∧ ¬(∃ l ∈ lines, 1 < l.count ';') ∧
      ¬(∃ l ∈ lines, 1 < l.count ',') ∧
      classifyBlock lines = none) := by
  by_cases h1 : ∃ l ∈ lines, '\t' ∈ l
  · exact Or.inl ⟨h1, classifyBlock_of_tab h1⟩
  by_cases h2 : ∃ l ∈ lines, 1 < l.count ':'
  · exact Or.inr (Or.inl ⟨h1, h2, classifyBlock_of_colon h1 h2⟩)
  by_cases h3 : ∃ l ∈ lines, 1 < l.count '|'
  · exact Or.inr (Or.inr (Or.inl ⟨h1, h2, h3, classifyBlock_of_pipe h1 h2 h3⟩))
  by_cases h4 : ∃ l ∈ lines, 1 < l.count ';'
  · exact Or.inr (Or.inr (Or.inr (Or.inl ⟨h1, h2, h3, h4,
      classifyBlock_of_semi h1 h2 h3 h4⟩)))
  by_cases h5 : ∃ l ∈ lines, 1 < l.count ','
  · exact Or.inr (Or.inr (Or.inr (Or.inr (Or.inl ⟨h1, h2, h3, h4, h5,
      classifyBlock_of_comma h1 h2 h3 h4 h5⟩))))
  · exact Or.inr (Or.inr (Or.inr (Or.inr (Or.inr ⟨h1, h2, h3, h4, h5,
      classifyBlock_of_none h1 h2 h3 h4 h5⟩))))

/-- C3: the delimiter decision of `_extract_delimited_tables` is a strict
priority chain — tab if any line contains a tab; else colon if any line has
more than one colon; else the first of `|`, `;`, `,` with more than one
occurrence on some line — and a block with both a tab and a multi-colon line
is always tab-delimited, never colon-delimited. -/
theorem claim_C3 (lines : List PyStr) :
    (classifyBlock lines = some ('\t', TType.tab_separated) ↔
      ∃ l ∈ lines, '\t' ∈ l) ∧
    (classifyBlock lines = some (':', TType.colon_separated) ↔
      ¬(∃ l ∈ lines, '\t' ∈ l) ∧ ∃ l ∈ lines, 1 < l.count ':') ∧
    (classifyBlock lines = some ('|', TType.other_delimited) ↔
      ¬(∃ l ∈ lines, '\t' ∈ l) ∧ ¬(∃ l ∈ lines, 1 < l.count ':') ∧
        ∃ l ∈ lines, 1 < l.count '|') ∧
    (classifyBlock lines = some (';', TType.other_delimited) ↔
      ¬(∃ l ∈ lines, '\t' ∈ l) ∧ ¬(∃ l ∈ lines, 1 < l.count ':') ∧
        ¬(∃ l ∈ lines, 1 < l.count '|') ∧ ∃ l ∈ lines, 1 < l.count ';') ∧
    (classifyBlock lines = some (',', TType.other_delimited) ↔
      ¬(∃ l ∈ lines, '\t' ∈ l) ∧ ¬(∃ l ∈ lines, 1 < l.count ':') ∧
        ¬(∃ l ∈ lines, 1 < l.count '|') ∧ ¬(∃ l ∈ lines, 1 < l.count ';') ∧
        ∃ l ∈ lines, 1 < l.count ',') ∧
    ((∃ l ∈ lines, '\t' ∈ l) → (∃ l ∈ lines, 1 < l.count ':') →
      classifyBlock lines = some ('\t', TType.tab_separated) ∧
        classifyBlock lines ≠ some (':', TType.colon_separated)) := by
  refine ⟨⟨?_, classifyBlock_of_tab⟩,
    ⟨?_, fun ⟨h1, h2⟩ => classifyBlock_of_colon h1 h2⟩,
    ⟨?_, fun ⟨h1, h2, h3⟩ => classifyBlock_of_pipe h1 h2 h3⟩,
    ⟨?_, fun ⟨h1, h2, h3, h4⟩ => classifyBlock_of_semi h1 h2 h3 h4⟩,
    ⟨?_, fun ⟨h1, h2, h3, h4, h5⟩ => classifyBlock_of_comma h1 h2 h3 h4 h5⟩,
    fun h1 _ => ⟨classifyBlock_of_tab h1,
      fun hc => absurd ((classifyBlock_of_tab h1).symm.trans hc) (by decide)⟩⟩ <;>
  · intro h
    rcases classifyBlock_total lines with ⟨hc, he⟩ | ⟨h1, hc, he⟩ | ⟨h1, h2, hc, he⟩ |
      ⟨h1, h2, h3, hc, he⟩ | ⟨h1, h2, h3, h4, hc, he⟩ | ⟨h1, h2, h3, h4, h5, he⟩ <;>
      first
        | (exact absurd (he.symm.trans h) (by decide))
        | (exact ⟨hc, he⟩)
        | (exact hc)
        | (exact ⟨h1, hc⟩)
        | (exact ⟨h1, h2, hc⟩)
        | (exact ⟨h1, h2, h3, hc⟩)
        | (exact ⟨h1, h2, h3, h4, hc⟩)

theorem claim_C3_witness :
    classifyBlock ["a\tb".toList, "x:y:z".toList] = some ('\t', TType.tab_separated) ∧
      classifyBlock ["a\tb".toList, "x:y:z".toList] ≠ some (':', TType.colon_separated) :=
  (claim_C3 ["a\tb".toList, "x:y:z".toList]).2.2.2.2.2 (by decide) (by decide)

/-- C7: a block is colon-delimited exactly when no line has a tab and some
line contains more than one colon; a one-colon line (`"Note: see below"`)
never qualifies by itself, a two-colon line (`"Name: John: Smith"`) does, and
a one-colon line does not stop another line of the block from qualifying. -/
theorem claim_C7 (lines : List PyStr) :
    (classifyBlock lines = some (':', TType.colon_separated) ↔
      ¬(∃ l ∈ lines, '\t' ∈ l) ∧ ∃ l ∈ lines, 1 < l.count ':') ∧
    1 < ("Name: John: Smith".toList).count ':' ∧
    ¬(1 < ("Note: see below".toList).count ':') ∧
    classifyBlock ["Note: see below".toList] = none ∧
    classifyBlock ["Note: see below".toList, "Name: John: Smith".toList]
      = some (':', TType.colon_separated) := by
  refine ⟨⟨?_, fun ⟨h1, h2⟩ => classifyBlock_of_colon h1 h2⟩,
    by decide, by decide, by decide, by decide⟩
  intro h
  rcases classifyBlock_total lines with ⟨hc, he⟩ | ⟨h1, hc, he⟩ | ⟨h1, h2, hc, he⟩ |
    ⟨h1, h2, h3, hc, he⟩ | ⟨h1, h2, h3, h4, hc, he⟩ | ⟨h1, h2, h3, h4, h5, he⟩
  · exact absurd (he.symm.trans h) (by decide)
  · exact ⟨h1, hc⟩
  · exact absurd (he.symm.trans h) (by decide)
  · exact absurd (he.symm.trans h) (by decide)
  · exact absurd (he.symm.trans h) (by decide)
  · exact absurd (he.symm.trans h) (by decide)

/-- Pages without text containers contribute nothing to the `rows`
dictionary. -/
theorem buildRows_of_no_text :
    ∀ (elements : List ContentElement), textElems elements = [] →
      buildRows elements = [] := by
  have haux : ∀ (elements : List ContentElement) (d : List (ℤ × List TextElem)),
      textElems elements = [] →
      elements.foldl
        (fun d ce =>
          match ce with
          | ContentElement.text e => dictAdd d (rowKey e) e
          | _ => d) d = d := by
    intro elements
    induction elements with
    | nil => intro d _; rfl
    | cons ce rest ih =>
      intro d h
      cases ce with
      | text e => simp [textElems] at h
      | rect => exact ih d (by simpa [textElems] using h)
      | line => exact ih d (by simpa [textElems] using h)
      | figure => exact ih d (by simpa [textElems] using h)
  intro elements h
  exact haux elements [] h

/-- C8: degenerate content is silently skipped — a page without text
elements leaves the state unchanged, a block whose lines match no delimiter
rule leaves the state unchanged, and a delimited or regular candidate table
with fewer than two rows leaves the state unchanged. -/
theorem claim_C8 :
    (∀ (s : ResultSet) (elements : List ContentElement),
        textElems elements = [] → process_page_elements s elements = s) ∧
    (∀ (s : ResultSet) (block : PyStr),
        classifyBlock (splitOnChar '\n' block) = none →
          extractDelimitedFromBlock s block = s) ∧
    (∀ (s : ResultSet) (lines : List PyStr) (d : Char) (t : TType),
        (tableDataOf lines d).length < 2 → process_delimited_table s lines d t = s) ∧
    (∀ (s : ResultSet) (elements : List ContentElement),
        (regularTableData elements).length < 2 → extract_regular_tables s elements = s) := by
  have hreg : ∀ (s : ResultSet) (elements : List ContentElement),
      (regularTableData elements).length < 2 → extract_regular_tables s elements = s := by
    intro s elements h
    unfold extract_regular_tables
    rw [if_neg (by omega)]
  refine ⟨?_, ?_, ?_, hreg⟩
  · intro s elements h
    unfold process_page_elements
    rw [hreg s elements ?hlen]
    case hlen =>
      unfold regularTableData clusterRows
      rw [buildRows_of_no_text elements h]
      simp [List.insertionSort]
    rw [h]
    rfl
  · intro s block h
    rw [extractDelimitedFromBlock_eq, h]
  · intro s lines d t h
    unfold process_delimited_table
    rw [if_neg (by omega)]

theorem claim_C8_witness :
    process_page_elements emptyResultSet [ContentElement.rect] = emptyResultSet ∧
      extractDelimitedFromBlock emptyResultSet "hello world".toList = emptyResultSet ∧
      process_delimited_table emptyResultSet ["a:b:c".toList] ':'
        TType.colon_separated = emptyResultSet ∧
      extract_regular_tables emptyResultSet [ContentElement.rect] = emptyResultSet :=
  ⟨claim_C8.1 emptyResultSet [ContentElement.rect] (by decide),
    claim_C8.2.1 emptyResultSet "hello world".toList (by decide),
    claim_C8.2.2.1 emptyResultSet ["a:b:c".toList] ':' TType.colon_separated (by decide),
    claim_C8.2.2.2 emptyResultSet [ContentElement.rect] (by decide)⟩

/-! ## Row-clustering lemmas (for the determinism claim) -/

theorem textElems_append (l1 l2 : List ContentElement) :
    textElems (l1 ++ l2) = textElems l1 ++ textElems l2 := by
  simp [textElems]

theorem buildRows_append_text (elements : List ContentElement) (e : TextElem) :
    buildRows (elements ++ [ContentElement.text e])
      = dictAdd (buildRows elements) (rowKey e) e := by
  unfold buildRows
  rw [List.foldl_append]
  rfl

theorem buildRows_append_nontext (elements : List ContentElement)
    (ce : ContentElement) (h : textElems [ce] = []) :
    buildRows (elements ++ [ce]) = buildRows elements := by
  cases ce with
  | text e => simp [textElems] at h
  | rect => unfold buildRows; rw [List.foldl_append]; rfl
  | line => unfold buildRows; rw [List.foldl_append]; rfl
  | figure => unfold buildRows; rw [List.foldl_append]; rfl

theorem keys_dictAdd (d : List (ℤ × List TextElem)) (k : ℤ) (e : TextElem) :
    (dictAdd d k e).map Prod.fst =
      if k ∈ d.map Prod.fst then d.map Prod.fst else d.map Prod.fst ++ [k] := by
  unfold dictAdd
  by_cases h : k ∈ d.map Prod.fst
  · rw [if_pos h, if_pos h, List.map_map]
    apply List.map_congr_left
    intro p _
    by_cases hp : p.1 = k <;> simp [hp]
  · rw [if_neg h, if_neg h]
    simp

theorem nodup_keys_dictAdd {d : List (ℤ × List TextElem)} (k : ℤ) (e : TextElem)
    (h : (d.map Prod.fst).Nodup) : ((dictAdd d k e).map Prod.fst).Nodup := by
  rw [keys_dictAdd]
  by_cases hk : k ∈ d.map Prod.fst
  · rw [if_pos hk]; exact h
  · rw [if_neg hk]; simp [List.nodup_append, h, hk]

theorem mem_keys_dictAdd (d : List (ℤ × List TextElem)) (k : ℤ) (e : TextElem)
    (k2 : ℤ) :
    k2 ∈ (dictAdd d k e).map Prod.fst ↔ k2 ∈ d.map Prod.fst ∨ k2 = k := by
  rw [keys_dictAdd]
  by_cases h : k ∈ d.map Prod.fst
  · rw [if_pos h]
    constructor
    · exact Or.inl
    · rintro (h2 | rfl)
      · exact h2
      · exact h
  · rw [if_neg h]; simp

/-- The `rows` dictionary has no duplicate keys, the bucket of every entry is
exactly the input-page-order filter of the text elements with that row key,
and the key set is the row-key image of the text elements. -/
theorem buildRows_entries (elements : List ContentElement) :
    ((buildRows elements).map Prod.fst).Nodup ∧
    (∀ p ∈ buildRows elements,
      p.2 = (textElems elements).filter fun e => decide (rowKey e = p.1)) ∧
    (∀ k : ℤ, k ∈ (buildRows elements).map Prod.fst ↔
      ∃ e ∈ textElems elements, rowKey e = k) := by
  induction elements using List.reverseRecOn with
  | nil =>
    refine ⟨by simp [buildRows], by simp [buildRows], ?_⟩
    intro k
    simp [buildRows, textElems]
  | append_singleton elements ce ih =>
    obtain ⟨ihn, ihe, ihm⟩ := ih
    cases ce with
    | text e =>
      rw [buildRows_append_text, textElems_append]
      have hsingle : textElems [ContentElement.text e] = [e] := rfl
      rw [hsingle]
      refine ⟨nodup_keys_dictAdd _ _ ihn, ?_, ?_⟩
      · intro p hp
        unfold dictAdd at hp
        by_cases hk : rowKey e ∈ (buildRows elements).map Prod.fst
        · rw [if_pos hk] at hp
          rcases List.mem_map.mp hp with ⟨q, hq, hpq⟩
          by_cases hq1 : q.1 = rowKey e
          · rw [if_pos hq1] at hpq
            subst hpq
            rw [List.filter_append]
            have : [e].filter (fun x => decide (rowKey x = q.1)) = [e] := by
              rw [List.filter_cons, if_pos (by simp [hq1]), List.filter_nil]
            rw [this, ← ihe q hq]
          · rw [if_neg hq1] at hpq
            subst hpq
            rw [List.filter_append]
            have : [e].filter (fun x => decide (rowKey x = q.1)) = [] := by
              rw [List.filter_cons,
                if_neg (by simp only [decide_eq_true_eq]; exact fun hc => hq1 hc.symm),
                List.filter_nil]
            rw [this, List.append_nil, ← ihe q hq]
        · rw [if_neg hk] at hp
          rcases List.mem_append.mp hp with hp | hp
          · have hne : rowKey e ≠ p.1 := by
              intro hc
              exact hk (hc ▸ List.mem_map.mpr ⟨p, hp, rfl⟩)
            rw [List.filter_append]
            have : [e].filter (fun x => decide (rowKey x = p.1)) = [] := by
              rw [List.filter_cons,
                if_neg (by simp only [decide_eq_true_eq]; exact hne),
                List.filter_nil]
            rw [this, List.append_nil, ← ihe p hp]
          · rcases List.mem_singleton.mp hp with rfl
            have hfilter : (textElems elements).filter
                (fun x => decide (rowKey x = (rowKey e, [e]).1)) = [] := by
              rw [List.filter_eq_nil_iff]
              intro x hx
              simp only [decide_eq_true_eq]
              intro hc
              exact hk ((ihm (rowKey e)).mpr ⟨x, hx, hc⟩)
            rw [List.filter_append, hfilter]
            rw [List.nil_append, List.filter_cons, if_pos (by simp), List.filter_nil]
      · intro k
        rw [mem_keys_dictAdd, ihm]
        constructor
        · rintro (⟨x, hx, hk⟩ | rfl)
          · exact ⟨x, List.mem_append_left _ hx, hk⟩
          · exact ⟨e, List.mem_append_right _ (List.mem_singleton_self e), rfl⟩
        · rintro ⟨x, hx, hk⟩
          rcases List.mem_append.mp hx with hx | hx
          · exact Or.inl ⟨x, hx, hk⟩
          · rcases List.mem_singleton.mp hx with rfl
            exact Or.inr hk.symm
    | rect =>
      rw [buildRows_append_nontext elements ContentElement.rect (by simp [textElems]),
        textElems_append, show textElems [ContentElement.rect] = [] by simp [textElems],
        List.append_nil]
      exact ⟨ihn, ihe, ihm⟩
    | line =>
      rw [buildRows_append_nontext elements ContentElement.line (by simp [textElems]),
        textElems_append, show textElems [ContentElement.line] = [] by simp [textElems],
        List.append_nil]
      exact ⟨ihn, ihe, ihm⟩
    | figure =>
      rw [buildRows_append_nontext elements ContentElement.figure (by simp [textElems]),
        textElems_append, show textElems [ContentElement.figure] = [] by simp [textElems],
        List.append_nil]
      exact ⟨ihn, ihe, ihm⟩

instance : IsTotal (ℤ × List TextElem) keyGe := ⟨fun a b => le_total b.1 a.1⟩

instance : IsTrans (ℤ × List TextElem) keyGe := ⟨fun _ _ _ h1 h2 => le_trans h2 h1⟩

instance : IsTotal TextElem x0le := ⟨fun a b => le_total a.x0 b.x0⟩

instance : IsTrans TextElem x0le := ⟨fun _ _ _ h1 h2 => le_trans h1 h2⟩

/-- Strict version of the in-row order, used to show that the stable sort has
a unique result when the `x0` values are distinct. -/
def x0lt (a b : TextElem) : Prop := a.x0 < b.x0

instance : IsAntisymm TextElem x0lt := ⟨fun _ _ h1 h2 => absurd h2 (lt_asymm h1)⟩

/-- Strict version of the descending key order. -/
def keyGt (a b : ℤ) : Prop := b < a

instance : IsAntisymm ℤ keyGt := ⟨fun _ _ h1 h2 => absurd h2 (lt_asymm h1)⟩

/-- Sorting a bucket with pairwise-distinct `x0` gives a strictly
`x0`-increasing list. -/
theorem sortX0_pairwise_lt {g : List TextElem}
    (h : g.Pairwise fun a b => a.x0 ≠ b.x0) :
    (List.insertionSort x0le g).Pairwise fun a b => a.x0 < b.x0 := by
  have hsort : (List.insertionSort x0le g).Pairwise x0le :=
    List.sorted_insertionSort x0le g
  have hne : (List.insertionSort x0le g).Pairwise fun a b => a.x0 ≠ b.x0 :=
    ((List.perm_insertionSort x0le g).pairwise_iff
      (fun {_ _} hab => hab.symm)).mpr h
  exact (hsort.and hne).imp fun hab => lt_of_le_of_ne hab.1 hab.2

/-- Buckets that are permutations of each other with pairwise-distinct `x0`
sort to the same list. -/
theorem sortX0_eq_of_perm {g1 g2 : List TextElem} (hp : g1.Perm g2)
    (h : g1.Pairwise fun a b => a.x0 ≠ b.x0) :
    List.insertionSort x0le g1 = List.insertionSort x0le g2 := by
  have h2 : g2.Pairwise fun a b => a.x0 ≠ b.x0 :=
    (hp.pairwise_iff (fun {_ _} hab => hab.symm)).mp h
  exact List.eq_of_perm_of_sorted
    (((List.perm_insertionSort x0le g1).trans hp).trans
      (List.perm_insertionSort x0le g2).symm)
    (show (List.insertionSort x0le g1).Pairwise x0lt from sortX0_pairwise_lt h)
    (show (List.insertionSort x0le g2).Pairwise x0lt from sortX0_pairwise_lt h2)

/-- The key-sorted dictionary is strictly descending in its keys (keys are
unique, so the descending sort is strict). -/
theorem sortedDict_strict (l : List ContentElement) :
    (List.insertionSort keyGe (buildRows l)).Pairwise fun p q => q.1 < p.1 := by
  obtain ⟨hn, -, -⟩ := buildRows_entries l
  have hp := List.perm_insertionSort keyGe (buildRows l)
  have hkn : ((List.insertionSort keyGe (buildRows l)).map Prod.fst).Nodup :=
    ((hp.map Prod.fst).nodup_iff).mpr hn
  have hs : (List.insertionSort keyGe (buildRows l)).Pairwise keyGe :=
    List.sorted_insertionSort keyGe (buildRows l)
  have hne : (List.insertionSort keyGe (buildRows l)).Pairwise fun p q => p.1 ≠ q.1 :=
    List.pairwise_map.mp hkn
  exact (hs.and hne).imp fun h => lt_of_le_of_ne h.1 (Ne.symm h.2)

/-- Within one row bucket all elements share the row key, so the claim's
distinctness hypothesis makes their `x0` values pairwise distinct. -/
theorem group_pairwise_ne {l : List ContentElement}
    (hdist : (textElems l).Pairwise fun a b => rowKey a ≠ rowKey b ∨ a.x0 ≠ b.x0)
    (k : ℤ) :
    ((textElems l).filter fun e => decide (rowKey e = k)).Pairwise
      fun a b => a.x0 ≠ b.x0 := by
  have hpair : ((textElems l).filter fun e => decide (rowKey e = k)).Pairwise
      fun a b => rowKey a ≠ rowKey b ∨ a.x0 ≠ b.x0 :=
    hdist.sublist (List.filter_sublist _)
  refine hpair.imp_of_mem ?_
  intro a b ha hb hab
  have hka : rowKey a = k := by simpa using (List.mem_filter.mp ha).2
  have hkb : rowKey b = k := by simpa using (List.mem_filter.mp hb).2
  rcases hab with h | h
  · exact absurd (hka.trans hkb.symm) h
  · exact h

/-- C5 (amended): for input sequences holding the same set of text elements,
if no two distinct elements share both the rounded `y0` key and the `x0`
coordinate, the row clusterer's output is the same regardless of iteration
order, with bucket keys strictly descending and each bucket strictly
increasing in `x0`.  (The original claim, without the distinctness proviso,
fails: Python's stable sorts keep input order between elements tying on both
keys — see the counterexample.) -/
theorem claim_C5 (l1 l2 : List ContentElement) (hperm : l1.Perm l2)
    (hdist : (textElems l1).Pairwise fun a b => rowKey a ≠ rowKey b ∨ a.x0 ≠ b.x0) :
    regularTableData l1 = regularTableData l2 ∧
      clusterRows l1 = clusterRows l2 ∧
      ((clusterRows l1).Pairwise fun p q => q.1 < p.1) ∧
      ∀ p ∈ clusterRows l1, p.2.Pairwise fun a b => a.x0 < b.x0 := by
  have hT : (textElems l1).Perm (textElems l2) := hperm.filterMap _
  obtain ⟨hn1, he1, hm1⟩ := buildRows_entries l1
  obtain ⟨hn2, he2, hm2⟩ := buildRows_entries l2
  have hp1 := List.perm_insertionSort keyGe (buildRows l1)
  have hp2 := List.perm_insertionSort keyGe (buildRows l2)
  have hstrict1 := sortedDict_strict l1
  have hstrict2 := sortedDict_strict l2
  have hkeysperm : ((buildRows l1).map Prod.fst).Perm ((buildRows l2).map Prod.fst) := by
    rw [List.perm_ext_iff_of_nodup hn1 hn2]
    intro k
    rw [hm1 k, hm2 k]
    constructor
    · rintro ⟨e, he, hk⟩; exact ⟨e, hT.mem_iff.mp he, hk⟩
    · rintro ⟨e, he, hk⟩; exact ⟨e, hT.mem_iff.mpr he, hk⟩
  have hsorted1 : ((List.insertionSort keyGe (buildRows l1)).map Prod.fst).Pairwise keyGt :=
    List.pairwise_map.mpr hstrict1
  have hsorted2 : ((List.insertionSort keyGe (buildRows l2)).map Prod.fst).Pairwise keyGt :=
    List.pairwise_map.mpr hstrict2
  have hkeys : (List.insertionSort keyGe (buildRows l1)).map Prod.fst
      = (List.insertionSort keyGe (buildRows l2)).map Prod.fst :=
    List.eq_of_perm_of_sorted
      (((hp1.map Prod.fst).trans hkeysperm).trans (hp2.map Prod.fst).symm)
      hsorted1 hsorted2
  have hlen : (List.insertionSort keyGe (buildRows l1)).length
      = (List.insertionSort keyGe (buildRows l2)).length := by
    have := congrArg List.length hkeys
    simpa using this
  have hcluster : clusterRows l1 = clusterRows l2 := by
    unfold clusterRows
    refine List.ext_getElem (by simpa using hlen) ?_
    intro i hi1 hi2
    have hib1 : i < (List.insertionSort keyGe (buildRows l1)).length := by
      simpa using hi1
    have hib2 : i < (List.insertionSort keyGe (buildRows l2)).length := by
      simpa using hi2
    have hmem1 : (List.insertionSort keyGe (buildRows l1))[i] ∈ buildRows l1 :=
      hp1.mem_iff.mp (List.getElem_mem hib1)
    have hmem2 : (List.insertionSort keyGe (buildRows l2))[i] ∈ buildRows l2 :=
      hp2.mem_iff.mp (List.getElem_mem hib2)
    have hkeyeq : (List.insertionSort keyGe (buildRows l1))[i].1
        = (List.insertionSort keyGe (buildRows l2))[i].1 := by
      have hmap := List.getElem_of_eq hkeys
        (show i < ((List.insertionSort keyGe (buildRows l1)).map Prod.fst).length by
          simpa using hib1)
      simpa using hmap
    have hval1 := he1 _ hmem1
    have hval2 := he2 _ hmem2
    simp only [List.getElem_map]
    refine Prod.ext hkeyeq ?_
    show List.insertionSort x0le (List.insertionSort keyGe (buildRows l1))[i].2
      = List.insertionSort x0le (List.insertionSort keyGe (buildRows l2))[i].2
    rw [hval1, hval2, ← hkeyeq]
    exact sortX0_eq_of_perm (hT.filter _) (group_pairwise_ne hdist _)
  refine ⟨by unfold regularTableData; rw [hcluster], hcluster, ?_, ?_⟩
  · unfold clusterRows
    exact List.pairwise_map.mpr hstrict1
  · intro p hp
    unfold clusterRows at hp
    rcases List.mem_map.mp hp with ⟨q, hq, rfl⟩
    have hqmem : q ∈ buildRows l1 := hp1.mem_iff.mp hq
    show (List.insertionSort x0le q.2).Pairwise fun a b => a.x0 < b.x0
    rw [he1 q hqmem]
    exact sortX0_pairwise_lt (group_pairwise_ne hdist q.1)

theorem claim_C5_witness :
    regularTableData
        [ContentElement.text ⟨"Hello".toList, 10, 700, 60, 710⟩,
         ContentElement.text ⟨"World".toList, 10, 680, 60, 690⟩]
      = regularTableData
        [ContentElement.text ⟨"World".toList, 10, 680, 60, 690⟩,
         ContentElement.text ⟨"Hello".toList, 10, 700, 60, 710⟩] :=
  (claim_C5
    [ContentElement.text ⟨"Hello".toList, 10, 700, 60, 710⟩,
     ContentElement.text ⟨"World".toList, 10, 680, 60, 690⟩]
    [ContentElement.text ⟨"World".toList, 10, 680, 60, 690⟩,
     ContentElement.text ⟨"Hello".toList, 10, 700, 60, 710⟩]
    (by decide) (by decide)).1

/-- C5 as stated is false: two text elements with equal `x0` and equal rounded
`y0` but different texts are a set-equal pair of inputs on which the clusterer
returns different row contents (the stable `x0` sort keeps input order), so
the output is not independent of iteration order. -/
theorem claim_C5_counterexample :
    ([ContentElement.text ⟨"a".toList, 10, 700, 60, 710⟩,
      ContentElement.text ⟨"b".toList, 10, 700, 60, 710⟩] : List ContentElement).Perm
      [ContentElement.text ⟨"b".toList, 10, 700, 60, 710⟩,
       ContentElement.text ⟨"a".toList, 10, 700, 60, 710⟩] ∧
    regularTableData
        [ContentElement.text ⟨"a".toList, 10, 700, 60, 710⟩,
         ContentElement.text ⟨"b".toList, 10, 700, 60, 710⟩]
      ≠ regularTableData
        [ContentElement.text ⟨"b".toList, 10, 700, 60, 710⟩,
         ContentElement.text ⟨"a".toList, 10, 700, 60, 710⟩] := by
  exact ⟨by decide, by decide⟩

/-! ## Block-segmentation lemmas (for the empty-result claim) -/

theorem splitOnChar_ne_nil (d : Char) : ∀ s : PyStr, splitOnChar d s ≠ [] := by
  intro s
  induction s with
  | nil => simp [splitOnChar]
  | cons c rest ih =>
    unfold splitOnChar
    by_cases hc : c = d
    · rw [if_pos hc]; simp
    · rw [if_neg hc]
      cases splitOnChar d rest with
      | nil => simp
      | cons s ss => simp

theorem splitOnChar_cons (d c : Char) (rest : PyStr) :
    splitOnChar d (c :: rest) =
      if c = d then [] :: splitOnChar d rest
      else
        match splitOnChar d rest with
        | [] => [[c]]
        | s :: ss => (c :: s) :: ss := rfl

theorem splitOnChar_append (d : Char) :
    ∀ (a b : PyStr), splitOnChar d (a ++ d :: b) = splitOnChar d a ++ splitOnChar d b := by
  intro a
  induction a with
  | nil =>
    intro b
    rw [List.nil_append, splitOnChar_cons d d b, if_pos rfl]
    rfl
  | cons c rest ih =>
    intro b
    rw [List.cons_append, splitOnChar_cons d c (rest ++ d :: b), splitOnChar_cons d c rest]
    by_cases hc : c = d
    · rw [if_pos hc, if_pos hc, ih b, List.cons_append]
    · rw [if_neg hc, if_neg hc, ih b]
      cases h : splitOnChar d rest with
      | nil => exact absurd h (splitOnChar_ne_nil d rest)
      | cons s ss => rfl

/-- The lines of a `'\n'`-join are the concatenation of the parts' lines. -/
theorem splitOnChar_joinNL :
    ∀ parts : List PyStr, parts ≠ [] →
      splitOnChar '\n' (joinNL parts) = (parts.map (splitOnChar '\n')).join := by
  intro parts
  induction parts with
  | nil => intro h; exact absurd rfl h
  | cons t rest ih =>
    intro _
    cases rest with
    | nil => simp [joinNL]
    | cons t2 rest2 =>
      show splitOnChar '\n' (t ++ '\n' :: joinNL (t2 :: rest2)) = _
      rw [splitOnChar_append, ih (by simp)]
      simp

theorem groupBlocksAux_nil (prev : Option ℚ) (cur blocks : List PyStr) :
    groupBlocksAux prev cur blocks [] =
      if cur = [] then blocks else blocks ++ [joinNL cur] := rfl

theorem groupBlocksAux_cons_none (cur blocks : List PyStr) (e : TextElem)
    (rest : List TextElem) :
    groupBlocksAux none cur blocks (e :: rest) =
      if cur = [] then groupBlocksAux (some e.y1) [e.text] blocks rest
      else groupBlocksAux (some e.y1) [e.text] (blocks ++ [joinNL cur]) rest := rfl

theorem groupBlocksAux_cons (prev : Option ℚ) (cur blocks : List PyStr)
    (e : TextElem) (rest : List TextElem) :
    groupBlocksAux prev cur blocks (e :: rest) =
      if (match prev with
          | none => true
          | some py => decide (rowGapExceeded py e.y1)) = true then
        (if cur = [] then groupBlocksAux (some e.y1) [e.text] blocks rest
         else groupBlocksAux (some e.y1) [e.text] (blocks ++ [joinNL cur]) rest)
      else groupBlocksAux (some e.y1) (cur ++ [e.text]) blocks rest := rfl

theorem groupBlocksAux_cons_some (py : ℚ) (cur blocks : List PyStr) (e : TextElem)
    (rest : List TextElem) :
    groupBlocksAux (some py) cur blocks (e :: rest) =
      if rowGapExceeded py e.y1 then
        (if cur = [] then groupBlocksAux (some e.y1) [e.text] blocks rest
         else groupBlocksAux (some e.y1) [e.text] (blocks ++ [joinNL cur]) rest)
      else groupBlocksAux (some e.y1) (cur ++ [e.text]) blocks rest := by
  rw [groupBlocksAux_cons]
  by_cases h : rowGapExceeded py e.y1
  · rw [if_pos (by simp [h]), if_pos h]
  · rw [if_neg (by simp [h]), if_neg h]

/-- Every line of every block emitted by the segmentation loop satisfies any
property that holds for all lines of the pending block, the emitted blocks,
and the remaining elements' texts. -/
theorem groupBlocksAux_lines (ok : PyStr → Prop) :
    ∀ (es : List TextElem) (prev : Option ℚ) (cur blocks : List PyStr),
      (∀ t ∈ cur, ∀ line ∈ splitOnChar '\n' t, ok line) →
      (∀ b ∈ blocks, ∀ line ∈ splitOnChar '\n' b, ok line) →
      (∀ e ∈ es, ∀ line ∈ splitOnChar '\n' e.text, ok line) →
      ∀ b ∈ groupBlocksAux prev cur blocks es, ∀ line ∈ splitOnChar '\n' b, ok line := by
  have hjoin : ∀ (cur : List PyStr), cur ≠ [] →
      (∀ t ∈ cur, ∀ line ∈ splitOnChar '\n' t, ok line) →
      ∀ line ∈ splitOnChar '\n' (joinNL cur), ok line := by
    intro cur hne hcur line hline
    rw [splitOnChar_joinNL cur hne] at hline
    rcases List.mem_join.mp hline with ⟨ls, hls, hmem⟩
    rcases List.mem_map.mp hls with ⟨t, ht, rfl⟩
    exact hcur t ht line hmem
  intro es
  induction es with
  | nil =>
    intro prev cur blocks hcur hblocks _ b hb
    rw [groupBlocksAux_nil] at hb
    by_cases hc : cur = []
    · rw [if_pos hc] at hb
      exact hblocks b hb
    · rw [if_neg hc] at hb
      rcases List.mem_append.mp hb with hb | hb
      · exact hblocks b hb
      · rcases List.mem_singleton.mp hb with rfl
        exact hjoin cur hc hcur
  | cons e rest ih =>
    intro prev cur blocks hcur hblocks hes b hb
    have hes' : ∀ x ∈ rest, ∀ line ∈ splitOnChar '\n' x.text, ok line :=
      fun x hx => hes x (List.mem_cons_of_mem _ hx)
    have he : ∀ line ∈ splitOnChar '\n' e.text, ok line :=
      hes e (List.mem_cons_self _ _)
    have hnewcur : ∀ t ∈ [e.text], ∀ line ∈ splitOnChar '\n' t, ok line := by
      intro t ht
      rcases List.mem_singleton.mp ht with rfl
      exact he
    have hflush : ∀ hc : ¬cur = [],
        ∀ b2 ∈ blocks ++ [joinNL cur], ∀ line ∈ splitOnChar '\n' b2, ok line := by
      intro hc b2 hb2
      rcases List.mem_append.mp hb2 with hb2 | hb2
      · exact hblocks b2 hb2
      · rcases List.mem_singleton.mp hb2 with rfl
        exact hjoin cur hc hcur
    cases prev with
    | none =>
      rw [groupBlocksAux_cons_none] at hb
      by_cases hc : cur = []
      · rw [if_pos hc] at hb
        exact ih (some e.y1) [e.text] blocks hnewcur hblocks hes' b hb
      · rw [if_neg hc] at hb
        exact ih (some e.y1) [e.text] _ hnewcur (hflush hc) hes' b hb
    | some py =>
      rw [groupBlocksAux_cons_some] at hb
      by_cases hgap : rowGapExceeded py e.y1
      · rw [if_pos hgap] at hb
        by_cases hc : cur = []
        · rw [if_pos hc] at hb
          exact ih (some e.y1) [e.text] blocks hnewcur hblocks hes' b hb
        · rw [if_neg hc] at hb
          exact ih (some e.y1) [e.text] _ hnewcur (hflush hc) hes' b hb
      · rw [if_neg hgap] at hb
        have hcur' : ∀ t ∈ cur ++ [e.text], ∀ line ∈ splitOnChar '\n' t, ok line := by
          intro t ht
          rcases List.mem_append.mp ht with ht | ht
          · exact hcur t ht
          · rcases List.mem_singleton.mp ht with rfl
            exact he
        exact ih (some e.y1) (cur ++ [e.text]) blocks hcur' hblocks hes' b hb

/-- Every line of every block of `_group_text_blocks` is a line of some input
element's text. -/
theorem group_text_blocks_lines (ok : PyStr → Prop) (elements : List TextElem)
    (hes : ∀ e ∈ elements, ∀ line ∈ splitOnChar '\n' e.text, ok line) :
    ∀ b ∈ group_text_blocks elements, ∀ line ∈ splitOnChar '\n' b, ok line := by
  unfold group_text_blocks
  refine groupBlocksAux_lines ok _ none [] [] (by simp) (by simp) ?_
  intro e he
  exact hes e ((List.perm_insertionSort blockLe elements).mem_iff.mp he)

/-- If no block of the page matches any delimiter rule, the delimited pass
leaves the state unchanged. -/
theorem extract_delimited_tables_unchanged {elements : List TextElem}
    (h : ∀ b ∈ group_text_blocks elements, classifyBlock (splitOnChar '\n' b) = none) :
    ∀ s : ResultSet, extract_delimited_tables s elements = s := by
  unfold extract_delimited_tables
  have haux : ∀ (bs : List PyStr),
      (∀ b ∈ bs, classifyBlock (splitOnChar '\n' b) = none) →
      ∀ s : ResultSet, bs.foldl extractDelimitedFromBlock s = s := by
    intro bs
    induction bs with
    | nil => intro _ s; rfl
    | cons b rest ih =>
      intro hb s
      rw [List.foldl_cons]
      have hone : extractDelimitedFromBlock s b = s := by
        rw [extractDelimitedFromBlock_eq, hb b (List.mem_cons_self _ _)]
      rw [hone]
      exact ih (fun x hx => hb x (List.mem_cons_of_mem _ hx)) s
  exact haux _ h

/-- When the rounded `y0` keys of a page's text elements are pairwise
distinct, every row bucket is a singleton and the candidate grid table has
exactly one row per text element. -/
theorem regularTableData_length {l : List ContentElement}
    (hy : (textElems l).Pairwise fun a b => rowKey a ≠ rowKey b) :
    (regularTableData l).length = (textElems l).length := by
  obtain ⟨hn, -, hm⟩ := buildRows_entries l
  have hnd2 : ((textElems l).map rowKey).Nodup := List.pairwise_map.mpr hy
  have hperm : ((buildRows l).map Prod.fst).Perm ((textElems l).map rowKey) := by
    rw [List.perm_ext_iff_of_nodup hn hnd2]
    intro k
    rw [hm k, List.mem_map]
  calc (regularTableData l).length
      = (List.insertionSort keyGe (buildRows l)).length := by
        unfold regularTableData clusterRows
        simp
    _ = (buildRows l).length := (List.perm_insertionSort keyGe (buildRows l)).length_eq
    _ = ((buildRows l).map Prod.fst).length := (List.length_map _ _).symm
    _ = ((textElems l).map rowKey).length := hperm.length_eq
    _ = (textElems l).length := List.length_map _ _

/-- The concrete two-element prose page used to settle the empty-result
claim: two text lines at distinct rounded baselines, no delimiters. -/
def prosePage : List ContentElement :=
  [ContentElement.text ⟨"Hello there".toList, 10, 700, 60, 710⟩,
   ContentElement.text ⟨"General Kenobi".toList, 10, 680, 60, 690⟩]

/-- C2 (amended): on a page whose text lines repeat no delimiter character
and whose text elements have pairwise-distinct rounded `y0`, the three
delimited categories stay empty, but the regular category stays empty only
when the page has at most one text element — with two or more, the row
clusterer still emits one (single-column-per-row) regular table.  (The
original claim that all four categories are empty is refuted by the
counterexample.) -/
theorem claim_C2 (page : List ContentElement)
    (hnd : ∀ e ∈ textElems page, ∀ line ∈ splitOnChar '\n' e.text,
      '\t' ∉ line ∧ line.count ':' ≤ 1 ∧ line.count '|' ≤ 1 ∧
        line.count ';' ≤ 1 ∧ line.count ',' ≤ 1)
    (hy : (textElems page).Pairwise fun a b => rowKey a ≠ rowKey b) :
    (process_page_elements emptyResultSet page).tab_separated = [] ∧
    (process_page_elements emptyResultSet page).colon_separated = [] ∧
    (process_page_elements emptyResultSet page).other_delimited = [] ∧
    ((process_page_elements emptyResultSet page).regular_tables = [] ↔
      (textElems page).length ≤ 1) := by
  have hok := group_text_blocks_lines
    (fun line => '\t' ∉ line ∧ line.count ':' ≤ 1 ∧ line.count '|' ≤ 1 ∧
      line.count ';' ≤ 1 ∧ line.count ',' ≤ 1)
    (textElems page) hnd
  have hdelim : ∀ b ∈ group_text_blocks (textElems page),
      classifyBlock (splitOnChar '\n' b) = none := by
    intro b hb
    refine classifyBlock_of_none ?_ ?_ ?_ ?_ ?_
    · rintro ⟨l, hl, hmem⟩
      exact (hok b hb l hl).1 hmem
    · rintro ⟨l, hl, hc⟩
      have := (hok b hb l hl).2.1
      omega
    · rintro ⟨l, hl, hc⟩
      have := (hok b hb l hl).2.2.1
      omega
    · rintro ⟨l, hl, hc⟩
      have := (hok b hb l hl).2.2.2.1
      omega
    · rintro ⟨l, hl, hc⟩
      have := (hok b hb l hl).2.2.2.2
      omega
  have hresult : process_page_elements emptyResultSet page
      = extract_regular_tables emptyResultSet page := by
    unfold process_page_elements
    exact extract_delimited_tables_unchanged hdelim _
  rw [hresult]
  unfold extract_regular_tables
  by_cases hlen : 1 < (regularTableData page).length
  · rw [if_pos hlen]
    cases htd : regularTableData page with
    | nil => rw [htd] at hlen; simp at hlen
    | cons hd rest =>
      refine ⟨rfl, rfl, rfl, ?_⟩
      constructor
      · intro hc
        exact absurd hc (List.cons_ne_nil _ _)
      · intro hc
        exfalso
        have h1 := regularTableData_length hy
        rw [htd] at h1 hlen
        simp only [List.length_cons] at h1 hlen
        omega
  · rw [if_neg hlen]
    refine ⟨rfl, rfl, rfl, ?_⟩
    constructor
    · intro _
      rw [← regularTableData_length hy]
      omega
    · intro _
      rfl

theorem claim_C2_witness :
    (process_page_elements emptyResultSet prosePage).tab_separated = [] ∧
    (process_page_elements emptyResultSet prosePage).colon_separated = [] ∧
    (process_page_elements emptyResultSet prosePage).other_delimited = [] ∧
    ((process_page_elements emptyResultSet prosePage).regular_tables = [] ↔
      (textElems prosePage).length ≤ 1) :=
  claim_C2 prosePage (by decide) (by decide)

/-- C2 as stated is false on the code: `prosePage` satisfies both provisos
of the claim (no repeated delimiters, pairwise-distinct rounded `y0`), yet
the regular category receives one table, so not all four categories are
empty. -/
theorem claim_C2_counterexample :
    (∀ e ∈ textElems prosePage, ∀ line ∈ splitOnChar '\n' e.text,
      '\t' ∉ line ∧ line.count ':' ≤ 1 ∧ line.count '|' ≤ 1 ∧
        line.count ';' ≤ 1 ∧ line.count ',' ≤ 1) ∧
    ((textElems prosePage).Pairwise fun a b => rowKey a ≠ rowKey b) ∧
    (process_page_elements emptyResultSet prosePage).regular_tables ≠ [] := by
  exact ⟨by decide, by decide, by decide⟩
